import Mathlib

/-!
Verification of `docker_latest-local-to-id.py`: a shallow embedding of the
pure logic of the script (reference normalization, digest matching, Docker-Hub
pagination, retrying fetch, tag classification, and the decision logic of
`main`), together with theorems checking the claims of the specification.

Strings are handled as `String` / `List Char`; Python string operations
(`startswith`, `endswith`, `in`, `split`, `rsplit`) are embedded as the
corresponding code-point-list operations.
-/

namespace DockerRevLookup

/-- Split a character list at the first occurrence of `c`:
returns (characters before the first `c`, characters after it).
If `c` does not occur, the whole list is returned on the left.
Embeds the behaviour of Python `s.split(c, 1)`. -/
def splitFirstOn (c : Char) : List Char → List Char × List Char
  | [] => ([], [])
  | x :: xs =>
    if x = c then ([], xs)
    else
      let p := splitFirstOn c xs
      (x :: p.1, p.2)

/-- Split a character list at the last occurrence of `c` (Python
`s.rsplit(c, 1)`); `none` when `c` does not occur. -/
def splitLastOn (c : Char) (l : List Char) : Option (List Char × List Char) :=
  if c ∈ l then
    let p := splitFirstOn c l.reverse
    some (p.2.reverse, p.1.reverse)
  else
    none

/-- Python `s.startswith(p)`. -/
def strStartsWith (s p : String) : Bool := p.toList.isPrefixOf s.toList

/-- Python `s.endswith(p)`. -/
def strEndsWith (s p : String) : Bool := p.toList.isSuffixOf s.toList

/-- Substring test on character lists: does `needle` occur contiguously in `hay`? -/
def listContainsSub (hay needle : List Char) : Bool :=
  if needle.isPrefixOf hay then true
  else
    match hay with
    | [] => false
    | _ :: t => listContainsSub t needle

/-- Python `needle in hay` (substring test). -/
def strContains (hay needle : String) : Bool := listContainsSub hay.toList needle.toList

/-- Python `s[n:]` (drop the first `n` code points). -/
def strDropChars (s : String) (n : Nat) : String := String.mk (s.toList.drop n)

/-- The host-stripping loop of `normalize_repo`: for each of the three
known registry host spellings, in order, strip it when the reference
starts with it (`for p in (...): if ref.startswith(p): ref = ref[len(p):]`). -/
def stripHostPre (ref : String) : String :=
  let r1 := if strStartsWith ref "docker.io/" then strDropChars ref "docker.io/".length else ref
  let r2 := if strStartsWith r1 "index.docker.io/" then strDropChars r1 "index.docker.io/".length else r1
  if strStartsWith r2 "registry-1.docker.io/" then strDropChars r2 "registry-1.docker.io/".length else r2

/-- The tag-splitting step of `normalize_repo`: split on the last colon
(Python `ref.rsplit(":", 1)`), defaulting the tag to "latest". -/
def normSplit (r : String) : String × String :=
  match splitLastOn ':' r.toList with
  | some (repo, tag) => (String.mk repo, String.mk tag)
  | none => (r, "latest")

/-- `normalize_repo` from the script: strip known registry host spellings,
split off the tag on the last colon (defaulting to "latest"), and prepend
"library/" when the repository has no namespace segment. -/
def normalize_repo (ref : String) : String × String :=
  let rt := normSplit (stripHostPre ref)
  if '/' ∈ rt.1.toList then rt
  else ("library/" ++ rt.1, rt.2)

/-- `repo_for_output` from the script: drop a leading "library/". -/
def repo_for_output (repo : String) : String :=
  if strStartsWith repo "library/" then strDropChars repo 8 else repo

/-- Lexicographic (code-point) comparison on character lists, the order
Python uses when sorting strings. -/
def charListLe : List Char → List Char → Bool
  | [], _ => true
  | _ :: _, [] => false
  | a :: as, b :: bs => if a < b then true else if b < a then false else charListLe as bs

/-- Python string `<=` (lexicographic by code point). -/
def strLe (a b : String) : Bool := charListLe a.toList b.toList

/-- `strLe` as a proposition, for use with the sorting library. -/
def pyLe (a b : String) : Prop := strLe a b = true

instance : DecidableRel pyLe := fun a b => by unfold pyLe; infer_instance

/-- Python `list.sort()` on strings: sort ascending by code-point order. -/
def sortStrs (l : List String) : List String := List.insertionSort pyLe l

/-- Consume a nonempty run of ASCII digits (the regex `\d+`, with the digit
class modelled as ASCII `0-9`); returns the remaining characters, or `none`
when the list does not start with a digit. -/
def eatDigits (l : List Char) : Option (List Char) :=
  if (l.takeWhile Char.isDigit).isEmpty then none else some (l.dropWhile Char.isDigit)

/-- The tail of `SEMVER_RX` after the third numeric component:
`(?:[.-].+)?$` — either end of input, or a `.`/`-` followed by at least
one character. -/
def semverTail : List Char → Bool
  | [] => true
  | c :: rest => (c = '.' || c = '-') && !rest.isEmpty

/-- The body of `SEMVER_RX` after the optional leading `v`:
`\d+\.\d+\.\d+(?:[.-].+)?$`. -/
def semverCore (l : List Char) : Bool :=
  match eatDigits l with
  | none => false
  | some r1 =>
    match r1 with
    | '.' :: r1' =>
      match eatDigits r1' with
      | none => false
      | some r2 =>
        match r2 with
        | '.' :: r2' =>
          match eatDigits r2' with
          | none => false
          | some r3 => semverTail r3
        | _ => false
    | _ => false

/-- `SEMVER_RX.match(t)`: `^v?\d+\.\d+\.\d+(?:[.-].+)?$`. -/
def isSemver (t : String) : Bool :=
  match t.toList with
  | 'v' :: rest => semverCore rest
  | l => semverCore l

/-- `split_latest_versions` from the script: partition a tag set into the
literal "latest", semver-looking tags (sorted), and the rest (sorted). -/
def split_latest_versions (tags : List String) :
    List String × List String × List String :=
  let latest := tags.filter (fun t => t = "latest")
  let versions := tags.filter (fun t => t ≠ "latest" && isSemver t)
  let others := tags.filter (fun t => t ≠ "latest" && !isSemver t)
  (latest, sortStrs versions, sortStrs others)

/-- The best-guess selection from `main`:
`versions[-1] if versions else (latest[0] if latest else (others[0] if others else None))`. -/
def preferredTag (versions latest others : List String) : Option String :=
  match versions.getLast? with
  | some v => some v
  | none =>
    match latest.head? with
    | some t => some t
    | none => others.head?

/-- The left-hand side of a `repo@digest` entry: everything before the
first `@` (Python `entry.split("@", 1)[0]`). -/
def entryLeft (entry : String) : String := String.mk (splitFirstOn '@' entry.toList).1

/-- The digest part of a `repo@digest` entry: everything after the first
`@` (Python `entry.split("@", 1)[1]`). -/
def entryDigest (entry : String) : String := String.mk (splitFirstOn '@' entry.toList).2

/-- The accepted repository spellings from
`get_local_repo_digests_via_docker_inspect`: bare short name and the three
registry-host-prefixed forms. -/
def variantsOf (hub_repo : String) : List String :=
  let short := repo_for_output hub_repo
  [short, "docker.io/" ++ short, "index.docker.io/" ++ short, "registry-1.docker.io/" ++ short]

/-- Whether a `RepoDigests` entry is accepted by the filter loop: it must
contain the literal `@sha256:` and its left-hand side must end with one of
the accepted repository spellings. -/
def entryAccepted (hub_repo entry : String) : Bool :=
  strContains entry "@sha256:" &&
    (variantsOf hub_repo).any (fun v => strEndsWith (entryLeft entry) v)

/-- The filter loop of `get_local_repo_digests_via_docker_inspect`: collect
the digest of every accepted entry (a set, modelled as a duplicate-free
accumulation with `List.insert`). -/
def matchedDigests (hub_repo : String) (entries : List String) : List String :=
  entries.foldl
    (fun acc entry => if entryAccepted hub_repo entry then acc.insert (entryDigest entry) else acc)
    []

/-- UTF-8 encoding of a Unicode code point, as byte values. -/
def utf8Enc (n : Nat) : List Nat :=
  if n < 128 then [n]
  else if n < 2048 then [192 + n / 64, 128 + n % 64]
  else if n < 65536 then [224 + n / 4096, 128 + n / 64 % 64, 128 + n % 64]
  else [240 + n / 262144, 128 + n / 4096 % 64, 128 + n / 64 % 64, 128 + n % 64]

/-- Uppercase hexadecimal digit. -/
def hexDigitChar (n : Nat) : Char := "0123456789ABCDEF".toList.getD n '0'

/-- Percent-encode one byte unless it is in the always-safe set of `urllib`
(ASCII letters, digits, `_`, `.`, `-`, `~`). -/
def quoteByteN (b : Nat) : List Char :=
  if (65 ≤ b && b ≤ 90) || (97 ≤ b && b ≤ 122) || (48 ≤ b && b ≤ 57) ||
      b = 95 || b = 46 || b = 45 || b = 126 then
    [Char.ofNat b]
  else
    ['%', hexDigitChar (b / 16), hexDigitChar (b % 16)]

/-- `urllib.parse.quote(s, safe="")`: percent-encode the UTF-8 bytes of `s`,
keeping only the always-safe characters. -/
def urlquote (s : String) : String :=
  String.mk ((s.toList.map (fun c => (utf8Enc c.toNat).map quoteByteN)).flatten.flatten)

/-- `HUB_BASE.format(repo=urllib.parse.quote(hub_repo, safe=""))`. -/
def hubBase (repo : String) : String :=
  "https://hub.docker.com/v2/repositories/" ++ urlquote repo ++ "/tags/?page_size=100"

/-- One per-platform image object of a Docker-Hub tag record (only its
`digest` field is read; `none` models an absent or null field). -/
structure ImageRec where
  digest : Option String
deriving DecidableEq

/-- One tag record of a Docker-Hub tags page: `name`, optional top-level
`digest`, and the `images` list (`obj.get("images") or []` — an absent or
null list is modelled as `[]`). -/
structure TagRecord where
  name : String
  digest : Option String
  images : List ImageRec
deriving DecidableEq

/-- One page of the tags endpoint: the `results` array (absent modelled
as `[]`) and the optional `next` URL. -/
structure Page where
  results : List TagRecord
  next : Option String
deriving DecidableEq

/-- The per-record match test of `collect_hub_tags_for_digests`: the
top-level digest (`obj.get("digest") or ""`), or any per-platform digest,
is in the target set. -/
def recordMatches (targets : List String) (r : TagRecord) : Bool :=
  targets.contains (r.digest.getD "") ||
    r.images.any (fun img => targets.contains (img.digest.getD ""))

/-- The inner `for obj in res` loop of `collect_hub_tags_for_digests`:
accumulate matching names into the hit set; the Boolean is `true` when the
loop returned early (first match with `scan_all=False`). -/
def processRecords (targets : List String) (scanAll : Bool) :
    List TagRecord → List String → List String × Bool
  | [], hits => (hits, false)
  | r :: rs, hits =>
    if recordMatches targets r then
      if scanAll then processRecords targets scanAll rs (hits.insert r.name)
      else (hits.insert r.name, true)
    else processRecords targets scanAll rs hits

/-- Result of the pagination loop: the hit set and the list of page URLs
that were actually fetched, in order. -/
structure CollectResult where
  hits : List String
  fetched : List String
deriving DecidableEq

/-- The `while url:` pagination loop of `collect_hub_tags_for_digests`,
with the registry as a function from URL to page. Mirrors the source: the
cycle guard runs first, then the page counter and cap check, then the
fetch and the record loop, then the `next` pointer (absent or empty stops).
The fuel argument is `max_pages + 1 - page`, which the cap check keeps
from ever reaching the `0` case. -/
def collectLoop (reg : String → Page) (targets : List String) (scanAll : Bool)
    (maxPages : Nat) : Nat → String → List String → List String → Nat → CollectResult
  | 0, _, _, hits, _ => ⟨hits, []⟩
  | fuel + 1, url, visited, hits, page =>
    if url ∈ visited then ⟨hits, []⟩
    else if maxPages < page + 1 then ⟨hits, []⟩
    else
      let pr := processRecords targets scanAll (reg url).results hits
      if pr.2 then ⟨pr.1, [url]⟩
      else
        let nxt := (reg url).next.getD ""
        if nxt = "" then ⟨pr.1, [url]⟩
        else
          let r := collectLoop reg targets scanAll maxPages fuel nxt (url :: visited) pr.1 (page + 1)
          ⟨r.hits, url :: r.fetched⟩

/-- `collect_hub_tags_for_digests` from the script, instrumented with the
list of fetched page URLs. -/
def collect_hub_tags_for_digests (reg : String → Page) (hub_repo : String)
    (targets : List String) (scanAll : Bool) (maxPages : Nat) : CollectResult :=
  collectLoop reg targets scanAll maxPages (maxPages + 1) (hubBase hub_repo) [] [] 0

/-- The walk along the registry's `next` pointers, defined with no
reference to the target digests or to matching: from a URL, keep
following `next` until it is absent or empty, the URL was already
visited, or the page cap is reached. This is the page sequence exhaustive
mode is expected to fetch. -/
def nextChainGo (reg : String → Page) (maxPages : Nat) :
    Nat → String → List String → Nat → List String
  | 0, _, _, _ => []
  | fuel + 1, url, visited, page =>
    if url ∈ visited then []
    else if maxPages < page + 1 then []
    else
      let nxt := (reg url).next.getD ""
      if nxt = "" then [url]
      else url :: nextChainGo reg maxPages fuel nxt (url :: visited) (page + 1)

/-- The full `next`-pointer chain from the first tags page. -/
def nextChain (reg : String → Page) (hub_repo : String) (maxPages : Nat) : List String :=
  nextChainGo reg maxPages (maxPages + 1) (hubBase hub_repo) [] 0

/-- The wrapped error raised when `fetch_json` exhausts its retries:
`RuntimeError(f"HTTP-Fehler bei Abruf {url}: {last}") from last`.
Exceptions are modelled by their text; `cause` models the `from last`. -/
structure WrappedErr where
  msg : String
  cause : Option String
deriving DecidableEq

/-- The message of the wrapped error. -/
def wrapMsg (url cause : String) : String :=
  "HTTP-Fehler bei Abruf " ++ url ++ ": " ++ cause

/-- Observable behaviour of one `fetch_json` call: its outcome, how many
attempts were made, and the sleep delays between attempts (in order). -/
structure FetchTrace (α : Type) where
  result : Except WrappedErr α
  attemptsMade : Nat
  sleeps : List ℚ

/-- The `while att <= retries` loop of `fetch_json`. `oracle i` is the
outcome of the `i`-th attempt (1-based); `remaining` counts the attempts
still allowed, `att` the attempts already made, `sleeps` the delays so far
(newest first), `last` the last exception. On each failure the loop sleeps
`min(backoff**att, 8)`; when no attempts remain it raises the wrapped
error built from the last exception. -/
def fetchGo (oracle : Nat → Except String α) (url : String) (backoff : ℚ) :
    Nat → Nat → List ℚ → Option String → FetchTrace α
  | 0, att, sleeps, last =>
    { result := Except.error { msg := wrapMsg url (last.getD "None"), cause := last },
      attemptsMade := att, sleeps := sleeps.reverse }
  | remaining + 1, att, sleeps, _last =>
    match oracle (att + 1) with
    | Except.ok v => { result := Except.ok v, attemptsMade := att + 1, sleeps := sleeps.reverse }
    | Except.error e =>
      fetchGo oracle url backoff remaining (att + 1)
        (min (backoff ^ (att + 1)) 8 :: sleeps) (some e)

/-- `fetch_json(url, timeout, retries, backoff)`: up to `retries + 1`
attempts, exponential backoff capped at 8 seconds per sleep. -/
def fetch_json (oracle : Nat → Except String α) (url : String)
    (retries : Nat) (backoff : ℚ) : FetchTrace α :=
  fetchGo oracle url backoff (retries + 1) 0 [] none

/-- Python truthiness of an optional string (`if local_id:`). -/
def optTruthy : Option String → Bool
  | none => false
  | some s => !s.isEmpty

/-- The explanatory note printed when `.RepoDigests` is empty (quotation
marks of the original text elided). -/
def noteMsg : String :=
  "Achtung: .RepoDigests ist leer. Häufige Gründe: Image lokal gebaut " ++
    "oder aus einer anderen Registry geladen. Die .Id (Config-Digest) ist " ++
    "i. d. R. nicht eindeutig einem Registry-Tag zuordenbar."

/-- The three classified tag buckets of the JSON payload. -/
structure TagBuckets where
  versions : List String
  latest : List String
  others : List String
deriving DecidableEq

/-- The JSON payload printed by `main`; `Option` fields model keys that
are present only in one of the two payload shapes. -/
structure JsonPayload where
  input : String
  repository : String
  local_repo_digests : List String
  local_id : Option String
  mapping_possible : Option Bool
  note : Option String
  tags : Option TagBuckets
  all_tags_sorted : Option (List String)
  scan_all : Option Bool
  max_pages : Option Nat
deriving DecidableEq

/-- Command-line arguments relevant to the modelled part of `main`. -/
structure Args where
  ref : String
  jsonMode : Bool
  scanAll : Bool
  maxPages : Nat
deriving DecidableEq

/-- Observable outcome of a `main` run: process exit code, stdout lines
(human mode), and the JSON payload (JSON mode). -/
structure MainOutcome where
  exitCode : Nat
  lines : List String
  payload : Option JsonPayload
deriving DecidableEq

/-- `main` from normalization onward, given the parsed results of the two
`docker image inspect` calls (`entries` = the `.RepoDigests` array,
`localId` = the `.Id` value) and the registry. Covers both the
empty-digest early exit (lines 274-298 of the script) and the mapped
path (lines 300-347). -/
def main_run (reg : String → Page) (entries : List String) (localId : Option String)
    (args : Args) : MainOutcome :=
  let hub_repo := (normalize_repo args.ref).1
  let out_repo := repo_for_output hub_repo
  let repo_digests := matchedDigests hub_repo entries
  if repo_digests.isEmpty then
    if args.jsonMode then
      { exitCode := 0, lines := [],
        payload := some
          { input := args.ref, repository := out_repo, local_repo_digests := [],
            local_id := localId, mapping_possible := some false, note := some noteMsg,
            tags := none, all_tags_sorted := none, scan_all := none, max_pages := none } }
    else
      { exitCode := 0,
        lines :=
          ["Image: " ++ args.ref, "Repository: " ++ out_repo] ++
            (if optTruthy localId then ["Lokale .Id: " ++ localId.getD ""] else []) ++ [noteMsg],
        payload := none }
  else
    let tags := (collect_hub_tags_for_digests reg hub_repo repo_digests args.scanAll args.maxPages).hits
    let lvo := split_latest_versions tags
    let latest := lvo.1
    let versions := lvo.2.1
    let others := lvo.2.2
    if args.jsonMode then
      { exitCode := 0, lines := [],
        payload := some
          { input := args.ref, repository := out_repo,
            local_repo_digests := sortStrs repo_digests, local_id := localId,
            mapping_possible := none, note := none,
            tags := some { versions := versions, latest := latest, others := others },
            all_tags_sorted := some (sortStrs tags), scan_all := some args.scanAll,
            max_pages := some args.maxPages } }
    else
      { exitCode := 0,
        lines :=
          ["Image: " ++ args.ref, "Repository: " ++ out_repo, "Lokale RepoDigest(s):"] ++
            (sortStrs repo_digests).map (fun d => "  - " ++ d) ++
            ["Zugeordnete Tags auf Docker Hub:"] ++
            (versions ++ latest ++ others).map (fun t => "  - " ++ out_repo ++ ":" ++ t) ++
            (if optTruthy (preferredTag versions latest others) then
              ["\n=> Wahrscheinlich verwendete Version/ID: " ++
                (preferredTag versions latest others).getD ""]
            else []),
        payload := none }

/-! ## Lemmas about the digest filter -/

theorem matchedDigests_go_mem (hub : String) :
    ∀ (entries : List String) (acc : List String) (d : String),
      d ∈ entries.foldl
            (fun acc entry =>
              if entryAccepted hub entry then acc.insert (entryDigest entry) else acc) acc ↔
        d ∈ acc ∨ ∃ e ∈ entries, entryAccepted hub e = true ∧ entryDigest e = d := by
  intro entries
  induction entries with
  | nil => intro acc d; simp
  | cons e es ih =>
    intro acc d
    rw [List.foldl_cons, ih]
    by_cases h : entryAccepted hub e = true
    · simp only [h, if_pos, List.mem_insert_iff, List.mem_cons]
      constructor
      · rintro (⟨h1 | h1⟩ | ⟨x, hx, hacc, hd⟩)
        · exact Or.inr ⟨e, Or.inl rfl, h, h1.symm⟩
        · exact Or.inl h1
        · exact Or.inr ⟨x, Or.inr hx, hacc, hd⟩
      · rintro (h1 | ⟨x, hx | hx, hacc, hd⟩)
        · exact Or.inl (Or.inr h1)
        · exact Or.inl (Or.inl (hx ▸ hd).symm)
        · exact Or.inr ⟨x, hx, hacc, hd⟩
    · simp only [h, if_neg, List.mem_cons]
      constructor
      · rintro (h1 | ⟨x, hx, hacc, hd⟩)
        · exact Or.inl h1
        · exact Or.inr ⟨x, Or.inr hx, hacc, hd⟩
      · rintro (h1 | ⟨x, hx | hx, hacc, hd⟩)
        · exact Or.inl h1
        · exact absurd hacc (hx ▸ h)
        · exact Or.inr ⟨x, hx, hacc, hd⟩

/-- C3: `get_local_repo_digests_via_docker_inspect` matches exactly the
entries whose left-hand side (before the first `@`) ends with one of the
accepted repository spellings and that contain `@sha256:`; in particular
`ollama/ollama@sha256:abc...` is included for repository `ollama/ollama`,
and an entry whose left-hand side ends with no accepted spelling is
excluded regardless of its digest. -/
theorem matchedDigests_exact :
    (∀ (hub_repo : String) (entries : List String) (d : String),
      d ∈ matchedDigests hub_repo entries ↔
        ∃ e ∈ entries,
          strContains e "@sha256:" = true ∧
            (variantsOf hub_repo).any (fun v => strEndsWith (entryLeft e) v) = true ∧
            entryDigest e = d) ∧
    "sha256:abc" ∈ matchedDigests "ollama/ollama" ["ollama/ollama@sha256:abc"] ∧
    "sha256:abc" ∉ matchedDigests "ollama/ollama" ["evil/other@sha256:abc"] := by
  refine ⟨fun hub entries d => ?_, by decide, by decide⟩
  rw [matchedDigests, matchedDigests_go_mem]
  simp only [List.not_mem_nil, false_or, entryAccepted, Bool.and_eq_true]
  constructor
  · rintro ⟨e, he, ⟨h1, h2⟩, h3⟩; exact ⟨e, he, h1, h2, h3⟩
  · rintro ⟨e, he, h1, h2, h3⟩; exact ⟨e, he, ⟨h1, h2⟩, h3⟩

/-- C10: an entry of the `.RepoDigests` list is skipped unless it contains
the literal substring `@sha256:`; a digest with another algorithm is never
collected even when its repository qualifier matches. -/
theorem non_sha256_entries_skipped :
    (∀ (hub e : String) (entries : List String),
      strContains e "@sha256:" = false →
        matchedDigests hub (e :: entries) = matchedDigests hub entries) ∧
    matchedDigests "ollama/ollama" ["ollama/ollama@sha512:abc"] = [] := by
  refine ⟨fun hub e entries h => ?_, by decide⟩
  simp [matchedDigests, entryAccepted, h]

/-- Witness for C10 at a concrete skipped entry. -/
theorem non_sha256_entries_skipped_witness :
    matchedDigests "a/b" ("x@sha512:y" :: ["a/b@sha256:z"]) =
      matchedDigests "a/b" ["a/b@sha256:z"] :=
  non_sha256_entries_skipped.1 "a/b" "x@sha512:y" ["a/b@sha256:z"] (by decide)

/-! ## Lemmas about the pagination loop -/

theorem collectLoop_succ (reg : String → Page) (targets : List String) (scanAll : Bool)
    (maxPages fuel : Nat) (url : String) (visited hits : List String) (page : Nat) :
    collectLoop reg targets scanAll maxPages (fuel + 1) url visited hits page =
      if url ∈ visited then ⟨hits, []⟩
      else if maxPages < page + 1 then ⟨hits, []⟩
      else
        let pr := processRecords targets scanAll (reg url).results hits
        if pr.2 then ⟨pr.1, [url]⟩
        else
          let nxt := (reg url).next.getD ""
          if nxt = "" then ⟨pr.1, [url]⟩
          else
            let r := collectLoop reg targets scanAll maxPages fuel nxt (url :: visited) pr.1
              (page + 1)
            ⟨r.hits, url :: r.fetched⟩ := rfl

theorem processRecords_no_scan_cases (targets : List String) :
    ∀ (rs : List TagRecord) (hits : List String),
      processRecords targets false rs hits = (hits, false) ∨
        ∃ name, processRecords targets false rs hits = (hits.insert name, true) := by
  intro rs
  induction rs with
  | nil => intro hits; exact Or.inl rfl
  | cons r rs ih =>
    intro hits
    by_cases h : recordMatches targets r = true
    · exact Or.inr ⟨r.name, by simp [processRecords, h]⟩
    · rw [processRecords, if_neg h]
      exact ih hits

theorem processRecords_no_scan_hit (targets : List String) :
    ∀ (rs : List TagRecord) (hits : List String),
      (∃ r ∈ rs, recordMatches targets r = true) →
        (processRecords targets false rs hits).2 = true := by
  intro rs
  induction rs with
  | nil => rintro hits ⟨r, hr, _⟩; exact absurd hr (List.not_mem_nil r)
  | cons r rs ih =>
    rintro hits ⟨x, hx, hm⟩
    by_cases h : recordMatches targets r = true
    · simp [processRecords, h]
    · rw [processRecords, if_neg h]
      rcases List.mem_cons.mp hx with rfl | hx
      · exact absurd hm h
      · exact ih hits ⟨x, hx, hm⟩

theorem processRecords_scan_no_early (targets : List String) :
    ∀ (rs : List TagRecord) (hits : List String),
      (processRecords targets true rs hits).2 = false := by
  intro rs
  induction rs with
  | nil => intro hits; rfl
  | cons r rs ih =>
    intro hits
    by_cases h : recordMatches targets r = true
    · rw [processRecords, if_pos h, if_pos rfl]; exact ih _
    · rw [processRecords, if_neg h]; exact ih _

theorem processRecords_scan_mem (targets : List String) :
    ∀ (rs : List TagRecord) (hits : List String) (x : String),
      x ∈ (processRecords targets true rs hits).1 ↔
        x ∈ hits ∨ ∃ r ∈ rs, recordMatches targets r = true ∧ r.name = x := by
  intro rs
  induction rs with
  | nil => intro hits x; simp [processRecords]
  | cons r rs ih =>
    intro hits x
    by_cases h : recordMatches targets r = true
    · rw [processRecords, if_pos h, if_pos rfl, ih]
      simp only [List.mem_insert_iff, List.mem_cons]
      constructor
      · rintro (⟨h1 | h1⟩ | ⟨y, hy, hm, hn⟩)
        · exact Or.inr ⟨r, Or.inl rfl, h, h1.symm⟩
        · exact Or.inl h1
        · exact Or.inr ⟨y, Or.inr hy, hm, hn⟩
      · rintro (h1 | ⟨y, hy | hy, hm, hn⟩)
        · exact Or.inl (Or.inr h1)
        · exact Or.inl (Or.inl (hy ▸ hn).symm)
        · exact Or.inr ⟨y, hy, hm, hn⟩
    · rw [processRecords, if_neg h, ih]
      simp only [List.mem_cons]
      constructor
      · rintro (h1 | ⟨y, hy, hm, hn⟩)
        · exact Or.inl h1
        · exact Or.inr ⟨y, Or.inr hy, hm, hn⟩
      · rintro (h1 | ⟨y, hy | hy, hm, hn⟩)
        · exact Or.inl h1
        · exact absurd hm (hy ▸ h)
        · exact Or.inr ⟨y, hy, hm, hn⟩

theorem collectLoop_fetched_fresh (reg : String → Page) (targets : List String)
    (scanAll : Bool) (maxPages : Nat) :
    ∀ (fuel : Nat) (url : String) (visited hits : List String) (page : Nat),
      (∀ u ∈ (collectLoop reg targets scanAll maxPages fuel url visited hits page).fetched,
          u ∉ visited) ∧
        (collectLoop reg targets scanAll maxPages fuel url visited hits page).fetched.Nodup := by
  intro fuel
  induction fuel with
  | zero => intro url visited hits page; exact ⟨by simp [collectLoop], by simp [collectLoop]⟩
  | succ fuel ih =>
    intro url visited hits page
    rw [collectLoop_succ]
    by_cases hv : url ∈ visited
    · simp [hv]
    · rw [if_neg hv]
      by_cases hcap : maxPages < page + 1
      · simp [hcap]
      · rw [if_neg hcap]
        simp only
        by_cases hpr : (processRecords targets scanAll (reg url).results hits).2 = true
        · rw [if_pos hpr]
          exact ⟨by simpa using hv, List.nodup_singleton url⟩
        · rw [if_neg hpr]
          by_cases hne : (reg url).next.getD "" = ""
          · rw [if_pos hne]
            exact ⟨by simpa using hv, List.nodup_singleton url⟩
          · rw [if_neg hne]
            simp only
            obtain ⟨ihfresh, ihnodup⟩ := ih ((reg url).next.getD "") (url :: visited)
              (processRecords targets scanAll (reg url).results hits).1 (page + 1)
            constructor
            · intro u hu
              rcases List.mem_cons.mp hu with rfl | hu
              · exact hv
              · exact fun hmem => ihfresh u hu (List.mem_cons_of_mem _ hmem)
            · refine List.nodup_cons.mpr ⟨fun hmem => ?_, ihnodup⟩
              exact ihfresh url hmem (List.mem_cons_self _ _)

/-- C2: the pagination loop never fetches the same page URL twice; a `next`
pointer that refers back to an already-visited URL terminates the loop
with the results accumulated so far (demonstrated on a registry whose one
page points back to itself: one fetch, hit set preserved). -/
theorem collect_never_refetches :
    (∀ (reg : String → Page) (hub_repo : String) (targets : List String)
        (scanAll : Bool) (maxPages : Nat),
      (collect_hub_tags_for_digests reg hub_repo targets scanAll maxPages).fetched.Nodup) ∧
    collect_hub_tags_for_digests
        (fun _ => { results := [{ name := "0.1.0", digest := some "d1", images := [] }],
                    next := some (hubBase "r") })
        "r" ["d1"] true 200 =
      { hits := ["0.1.0"], fetched := [hubBase "r"] } := by
  constructor
  · intro reg hub targets scanAll maxPages
    exact (collectLoop_fetched_fresh reg targets scanAll maxPages (maxPages + 1)
      (hubBase hub) [] [] 0).2
  · decide

/-- C1: in stop-at-first-match mode (`scan_all=False`), as soon as the
first fetched page contains a matching record the function returns with no
further fetch: the URL of the first page is the only one ever fetched. -/
theorem collect_stop_at_first_match (reg : String → Page) (hub_repo : String)
    (targets : List String) (maxPages : Nat) (hm : 1 ≤ maxPages)
    (hhit : ∃ r ∈ (reg (hubBase hub_repo)).results, recordMatches targets r = true) :
    (collect_hub_tags_for_digests reg hub_repo targets false maxPages).fetched =
      [hubBase hub_repo] := by
  rw [collect_hub_tags_for_digests, collectLoop_succ]
  rw [if_neg (List.not_mem_nil _), if_neg (by omega)]
  simp only
  rw [if_pos (processRecords_no_scan_hit targets _ [] hhit)]

/-- Witness for C1: a registry whose first page matches is fetched once. -/
theorem collect_stop_at_first_match_witness :
    (collect_hub_tags_for_digests
        (fun _ => { results := [{ name := "1.0.0", digest := some "dd", images := [] }],
                    next := some "NEXT" })
        "r" ["dd"] false 200).fetched = [hubBase "r"] :=
  collect_stop_at_first_match _ "r" ["dd"] 200 (by omega)
    ⟨{ name := "1.0.0", digest := some "dd", images := [] }, by simp, by decide⟩

theorem collectLoop_no_scan_small (reg : String → Page) (targets : List String)
    (maxPages : Nat) :
    ∀ (fuel : Nat) (url : String) (visited : List String) (page : Nat),
      (collectLoop reg targets false maxPages fuel url visited [] page).hits.length ≤ 1 := by
  intro fuel
  induction fuel with
  | zero => intro url visited page; simp [collectLoop]
  | succ fuel ih =>
    intro url visited page
    rw [collectLoop_succ]
    by_cases hv : url ∈ visited
    · simp [hv]
    · rw [if_neg hv]
      by_cases hcap : maxPages < page + 1
      · simp [hcap]
      · rw [if_neg hcap]
        simp only
        rcases processRecords_no_scan_cases targets (reg url).results [] with hpr | ⟨name, hpr⟩
        · rw [hpr]
          simp only [if_neg Bool.false_ne_true]
          by_cases hne : (reg url).next.getD "" = ""
          · simp [hne]
          · rw [if_neg hne]
            exact ih ((reg url).next.getD "") (url :: visited) (page + 1)
        · rw [hpr]
          simp

/-- C9: in default (non-exhaustive) mode the function returns as soon as a
single record matches, so the hit set has at most one element — even when
further records on the same page would match (demonstrated on a page with
two matching records, of which only the first is returned). -/
theorem collect_default_at_most_one :
    (∀ (reg : String → Page) (hub_repo : String) (targets : List String) (maxPages : Nat),
      (collect_hub_tags_for_digests reg hub_repo targets false maxPages).hits.length ≤ 1) ∧
    collect_hub_tags_for_digests
        (fun _ => { results := [{ name := "a", digest := some "d1", images := [] },
                                { name := "b", digest := some "d1", images := [] }],
                    next := none })
        "r" ["d1"] false 200 =
      { hits := ["a"], fetched := [hubBase "r"] } := by
  constructor
  · intro reg hub targets maxPages
    exact collectLoop_no_scan_small reg targets maxPages (maxPages + 1) (hubBase hub) [] 0
  · decide

theorem collectLoop_fetched_length (reg : String → Page) (targets : List String)
    (scanAll : Bool) (maxPages : Nat) :
    ∀ (fuel : Nat) (url : String) (visited hits : List String) (page : Nat),
      (collectLoop reg targets scanAll maxPages fuel url visited hits page).fetched.length ≤
        maxPages - page := by
  intro fuel
  induction fuel with
  | zero => intro url visited hits page; simp [collectLoop]
  | succ fuel ih =>
    intro url visited hits page
    rw [collectLoop_succ]
    by_cases hv : url ∈ visited
    · simp [hv]
    · rw [if_neg hv]
      by_cases hcap : maxPages < page + 1
      · simp [hcap]
      · rw [if_neg hcap]
        simp only
        by_cases hpr : (processRecords targets scanAll (reg url).results hits).2 = true
        · rw [if_pos hpr]
          simp only [List.length_singleton]
          omega
        · rw [if_neg hpr]
          by_cases hne : (reg url).next.getD "" = ""
          · rw [if_pos hne]
            simp only [List.length_singleton]
            omega
          · rw [if_neg hne]
            simp only [List.length_cons]
            have := ih ((reg url).next.getD "") (url :: visited)
              (processRecords targets scanAll (reg url).results hits).1 (page + 1)
            omega

theorem collectLoop_scan_mono (reg : String → Page) (targets : List String)
    (maxPages : Nat) :
    ∀ (fuel : Nat) (url : String) (visited hits : List String) (page : Nat) (x : String),
      x ∈ hits →
        x ∈ (collectLoop reg targets true maxPages fuel url visited hits page).hits := by
  intro fuel
  induction fuel with
  | zero => intro url visited hits page x hx; simpa [collectLoop] using hx
  | succ fuel ih =>
    intro url visited hits page x hx
    rw [collectLoop_succ]
    by_cases hv : url ∈ visited
    · simpa [hv] using hx
    · rw [if_neg hv]
      by_cases hcap : maxPages < page + 1
      · simpa [hcap] using hx
      · rw [if_neg hcap]
        simp only
        have hmem : x ∈ (processRecords targets true (reg url).results hits).1 :=
          (processRecords_scan_mem targets _ _ _).mpr (Or.inl hx)
        by_cases hpr : (processRecords targets true (reg url).results hits).2 = true
        · rw [if_pos hpr]; exact hmem
        · rw [if_neg hpr]
          by_cases hne : (reg url).next.getD "" = ""
          · rw [if_pos hne]; exact hmem
          · rw [if_neg hne]
            exact ih _ _ _ _ x hmem

theorem collectLoop_scan_sound (reg : String → Page) (targets : List String)
    (maxPages : Nat) :
    ∀ (fuel : Nat) (url : String) (visited hits : List String) (page : Nat),
      ∀ u ∈ (collectLoop reg targets true maxPages fuel url visited hits page).fetched,
        ∀ r ∈ (reg u).results, recordMatches targets r = true →
          r.name ∈ (collectLoop reg targets true maxPages fuel url visited hits page).hits := by
  intro fuel
  induction fuel with
  | zero => intro url visited hits page u hu; simp [collectLoop] at hu
  | succ fuel ih =>
    intro url visited hits page u hu r hr hmatch
    rw [collectLoop_succ] at hu ⊢
    by_cases hv : url ∈ visited
    · simp [hv] at hu
    · rw [if_neg hv] at hu ⊢
      by_cases hcap : maxPages < page + 1
      · simp [hcap] at hu
      · rw [if_neg hcap] at hu ⊢
        simp only at hu ⊢
        have hname : u = url →
            r.name ∈ (processRecords targets true (reg url).results hits).1 := by
          rintro rfl
          exact (processRecords_scan_mem targets _ _ _).mpr (Or.inr ⟨r, hr, hmatch, rfl⟩)
        by_cases hpr : (processRecords targets true (reg url).results hits).2 = true
        · rw [if_pos hpr] at hu ⊢
          rcases List.mem_singleton.mp hu with rfl
          exact hname rfl
        · rw [if_neg hpr] at hu ⊢
          by_cases hne : (reg url).next.getD "" = ""
          · rw [if_pos hne] at hu ⊢
            rcases List.mem_singleton.mp hu with rfl
            exact hname rfl
          · rw [if_neg hne] at hu ⊢
            simp only at hu ⊢
            rcases List.mem_cons.mp hu with rfl | hu
            · exact collectLoop_scan_mono reg targets maxPages fuel _ _ _ _ _ (hname rfl)
            · exact ih _ _ _ _ u hu r hr hmatch

theorem collectLoop_scan_complete (reg : String → Page) (targets : List String)
    (maxPages : Nat) :
    ∀ (fuel : Nat) (url : String) (visited hits : List String) (page : Nat),
      ∀ x ∈ (collectLoop reg targets true maxPages fuel url visited hits page).hits,
        x ∈ hits ∨
          ∃ u ∈ (collectLoop reg targets true maxPages fuel url visited hits page).fetched,
            ∃ r ∈ (reg u).results, recordMatches targets r = true ∧ r.name = x := by
  intro fuel
  induction fuel with
  | zero => intro url visited hits page x hx; exact Or.inl (by simpa [collectLoop] using hx)
  | succ fuel ih =>
    intro url visited hits page x hx
    rw [collectLoop_succ] at hx ⊢
    by_cases hv : url ∈ visited
    · exact Or.inl (by simpa [hv] using hx)
    · rw [if_neg hv] at hx ⊢
      by_cases hcap : maxPages < page + 1
      · exact Or.inl (by simpa [hcap] using hx)
      · rw [if_neg hcap] at hx ⊢
        simp only at hx ⊢
        by_cases hpr : (processRecords targets true (reg url).results hits).2 = true
        · rw [if_pos hpr] at hx ⊢
          rcases (processRecords_scan_mem targets _ _ _).mp hx with h | ⟨r, hr, hm, hn⟩
          · exact Or.inl h
          · exact Or.inr ⟨url, List.mem_singleton_self _, r, hr, hm, hn⟩
        · rw [if_neg hpr] at hx ⊢
          by_cases hne : (reg url).next.getD "" = ""
          · rw [if_pos hne] at hx ⊢
            rcases (processRecords_scan_mem targets _ _ _).mp hx with h | ⟨r, hr, hm, hn⟩
            · exact Or.inl h
            · exact Or.inr ⟨url, List.mem_singleton_self _, r, hr, hm, hn⟩
          · rw [if_neg hne] at hx ⊢
            simp only at hx ⊢
            rcases ih _ _ _ _ x hx with h | ⟨u, hu, r, hr, hm, hn⟩
            · rcases (processRecords_scan_mem targets _ _ _).mp h with h2 | ⟨r, hr, hm, hn⟩
              · exact Or.inl h2
              · exact Or.inr ⟨url, List.mem_cons_self _ _, r, hr, hm, hn⟩
            · exact Or.inr ⟨u, List.mem_cons_of_mem _ hu, r, hr, hm, hn⟩

theorem collectLoop_scan_fetched (reg : String → Page) (targets : List String)
    (maxPages : Nat) :
    ∀ (fuel : Nat) (url : String) (visited hits : List String) (page : Nat),
      (collectLoop reg targets true maxPages fuel url visited hits page).fetched =
        nextChainGo reg maxPages fuel url visited page := by
  intro fuel
  induction fuel with
  | zero => intro url visited hits page; rfl
  | succ fuel ih =>
    intro url visited hits page
    rw [collectLoop_succ, nextChainGo]
    by_cases hv : url ∈ visited
    · simp [hv]
    · rw [if_neg hv, if_neg hv]
      by_cases hcap : maxPages < page + 1
      · simp [hcap]
      · rw [if_neg hcap, if_neg hcap]
        simp only
        rw [if_neg (by rw [processRecords_scan_no_early]; exact Bool.false_ne_true)]
        by_cases hne : (reg url).next.getD "" = ""
        · rw [if_pos hne, if_pos hne]
        · rw [if_neg hne, if_neg hne]
          simp only
          rw [ih]

/-- C5: in exhaustive mode (`scan_all=True`) pagination continues through
all pages regardless of matches: the fetched URLs are exactly the walk
along the `next` pointers from the first page (`nextChain`, which is
defined without any reference to the target digests and stops only at a
missing or empty `next`, a revisited URL, or the page cap) — in
particular the fetched pages do not depend on the target digests at all;
at most `max_pages` pages are fetched; and the returned set is exactly
the names of the matching records over the fetched pages, so a cap
cut-off still returns the partial set rather than failing. Concretely, a
match on page 1 does not stop the walk: page 2 is still fetched and its
matching tag is also returned. -/
theorem collect_scan_all_spec :
    (∀ (reg : String → Page) (hub_repo : String) (targets : List String) (maxPages : Nat),
      (collect_hub_tags_for_digests reg hub_repo targets true maxPages).fetched =
          nextChain reg hub_repo maxPages ∧
        (∀ targets' : List String,
          (collect_hub_tags_for_digests reg hub_repo targets true maxPages).fetched =
            (collect_hub_tags_for_digests reg hub_repo targets' true maxPages).fetched) ∧
        (collect_hub_tags_for_digests reg hub_repo targets true maxPages).fetched.length ≤
          maxPages ∧
        (∀ u ∈ (collect_hub_tags_for_digests reg hub_repo targets true maxPages).fetched,
          ∀ r ∈ (reg u).results, recordMatches targets r = true →
            r.name ∈ (collect_hub_tags_for_digests reg hub_repo targets true maxPages).hits) ∧
        (∀ x ∈ (collect_hub_tags_for_digests reg hub_repo targets true maxPages).hits,
          ∃ u ∈ (collect_hub_tags_for_digests reg hub_repo targets true maxPages).fetched,
            ∃ r ∈ (reg u).results, recordMatches targets r = true ∧ r.name = x)) ∧
    collect_hub_tags_for_digests
        (fun u =>
          if u = hubBase "r" then
            { results := [{ name := "a", digest := some "d1", images := [] }],
              next := some "NEXT2" }
          else
            { results := [{ name := "b", digest := some "d1", images := [] }],
              next := none })
        "r" ["d1"] true 200 =
      { hits := ["b", "a"], fetched := [hubBase "r", "NEXT2"] } := by
  refine ⟨fun reg hub_repo targets maxPages => ⟨?_, ?_, ?_, ?_, ?_⟩, by decide⟩
  · exact collectLoop_scan_fetched reg targets maxPages (maxPages + 1) (hubBase hub_repo) [] [] 0
  · intro targets'
    rw [collect_hub_tags_for_digests, collect_hub_tags_for_digests,
      collectLoop_scan_fetched reg targets maxPages,
      collectLoop_scan_fetched reg targets' maxPages]
  · simpa using collectLoop_fetched_length reg targets true maxPages (maxPages + 1)
      (hubBase hub_repo) [] [] 0
  · exact collectLoop_scan_sound reg targets maxPages (maxPages + 1) (hubBase hub_repo) [] [] 0
  · intro x hx
    rcases collectLoop_scan_complete reg targets maxPages (maxPages + 1)
        (hubBase hub_repo) [] [] 0 x hx with h | h
    · exact absurd h (List.not_mem_nil x)
    · exact h

/-! ## Lemmas about `fetch_json` -/

theorem fetchGo_att_le {α : Type} (oracle : Nat → Except String α) (url : String)
    (backoff : ℚ) :
    ∀ (remaining att : Nat) (sleeps : List ℚ) (last : Option String),
      (fetchGo oracle url backoff remaining att sleeps last).attemptsMade ≤ att + remaining := by
  intro remaining
  induction remaining with
  | zero => intro att sleeps last; simp [fetchGo]
  | succ remaining ih =>
    intro att sleeps last
    rw [fetchGo]
    cases oracle (att + 1) with
    | ok v => simp only; omega
    | error e =>
      simp only
      have := ih (att + 1) (min (backoff ^ (att + 1)) 8 :: sleeps) (some e)
      omega

theorem fetchGo_err_att {α : Type} (oracle : Nat → Except String α) (url : String)
    (backoff : ℚ) :
    ∀ (remaining att : Nat) (sleeps : List ℚ) (last : Option String) (err : WrappedErr),
      (fetchGo oracle url backoff remaining att sleeps last).result = Except.error err →
        (fetchGo oracle url backoff remaining att sleeps last).attemptsMade =
          att + remaining := by
  intro remaining
  induction remaining with
  | zero => intro att sleeps last err _; simp [fetchGo]
  | succ remaining ih =>
    intro att sleeps last err h
    rw [fetchGo] at h ⊢
    cases horacle : oracle (att + 1) with
    | ok v => rw [horacle] at h; simp at h
    | error e =>
      rw [horacle] at h
      simp only at h ⊢
      rw [ih (att + 1) _ _ err h]
      omega

theorem fetchGo_all_fail {α : Type} (oracle : Nat → Except String α) (url : String)
    (backoff : ℚ) :
    ∀ (remaining : Nat), 1 ≤ remaining →
      ∀ (att : Nat) (sleeps : List ℚ) (last : Option String),
        (∀ i, att < i → i ≤ att + remaining → (oracle i).isOk = false) →
          ∃ e, oracle (att + remaining) = Except.error e ∧
            fetchGo oracle url backoff remaining att sleeps last =
              { result := Except.error { msg := wrapMsg url e, cause := some e },
                attemptsMade := att + remaining,
                sleeps := sleeps.reverse ++
                  (List.range remaining).map (fun k => min (backoff ^ (att + k + 1)) 8) } := by
  intro remaining
  induction remaining with
  | zero => intro h; omega
  | succ remaining ih =>
    intro _ att sleeps last hfail
    have h1 : (oracle (att + 1)).isOk = false := hfail (att + 1) (by omega) (by omega)
    cases horacle : oracle (att + 1) with
    | ok v => rw [horacle] at h1; simp [Except.isOk, Except.toBool] at h1
    | error e =>
      rcases Nat.eq_zero_or_pos remaining with rfl | hpos
      · refine ⟨e, by simpa using horacle, ?_⟩
        rw [fetchGo, horacle]
        simp [fetchGo, wrapMsg, List.range_succ]
      · obtain ⟨e2, he2, heq⟩ := ih hpos (att + 1)
          (min (backoff ^ (att + 1)) 8 :: sleeps) (some e)
          (fun i hi1 hi2 => hfail i (by omega) (by omega))
        have hatt2 : att + 1 + remaining = att + (remaining + 1) := by omega
        have hsleeps :
            (min (backoff ^ (att + 1)) 8 :: sleeps).reverse ++
                (List.range remaining).map (fun k => min (backoff ^ (att + 1 + k + 1)) 8) =
              sleeps.reverse ++
                (List.range (remaining + 1)).map (fun k => min (backoff ^ (att + k + 1)) 8) := by
          rw [List.reverse_cons, List.append_assoc, List.range_succ_eq_map, List.map_cons,
            List.map_map, List.singleton_append]
          congr 1
          congr 1
          refine List.map_congr_left fun k _ => ?_
          simp only [Function.comp_apply]
          have hkk : att + 1 + k + 1 = att + (k + 1) + 1 := by omega
          rw [hkk]
        refine ⟨e2, by rw [show att + (remaining + 1) = att + 1 + remaining by omega]; exact he2, ?_⟩
        rw [fetchGo, horacle]
        simp only
        rw [heq, hatt2, hsleeps]

/-- C4: `fetch_json` makes at most `retries + 1` attempts; the wrapped
error is raised only after all attempts are exhausted; and when every
attempt fails it raises a wrapped error whose message contains the failing
URL and whose cause is the last underlying exception, having slept
`min(backoff**attempt, 8)` after each failed attempt. -/
theorem fetch_json_retry_spec {α : Type} (oracle : Nat → Except String α) (url : String)
    (retries : Nat) (backoff : ℚ) :
    (fetch_json oracle url retries backoff).attemptsMade ≤ retries + 1 ∧
      (∀ err, (fetch_json oracle url retries backoff).result = Except.error err →
        (fetch_json oracle url retries backoff).attemptsMade = retries + 1) ∧
      ((∀ i, 1 ≤ i → i ≤ retries + 1 → (oracle i).isOk = false) →
        ∃ e, oracle (retries + 1) = Except.error e ∧
          (fetch_json oracle url retries backoff).result =
            Except.error { msg := wrapMsg url e, cause := some e } ∧
          (∃ a b, wrapMsg url e = a ++ url ++ b) ∧
          (fetch_json oracle url retries backoff).sleeps =
            (List.range (retries + 1)).map (fun k => min (backoff ^ (k + 1)) 8)) := by
  refine ⟨?_, ?_, ?_⟩
  · simpa using fetchGo_att_le oracle url backoff (retries + 1) 0 [] none
  · intro err h
    simpa using fetchGo_err_att oracle url backoff (retries + 1) 0 [] none err h
  · intro hfail
    obtain ⟨e, he, heq⟩ := fetchGo_all_fail oracle url backoff (retries + 1) (by omega) 0 [] none
      (fun i hi1 hi2 => hfail i (by omega) (by omega))
    refine ⟨e, by simpa using he, ?_, ⟨"HTTP-Fehler bei Abruf ", ": " ++ e, ?_⟩, ?_⟩
    · rw [fetch_json, heq]
    · rw [wrapMsg, String.append_assoc]
    · rw [fetch_json, heq]
      simp only [List.reverse_nil, List.nil_append]
      refine List.map_congr_left fun k _ => ?_
      norm_num

/-- Witness for C4: every attempt failing at a concrete oracle yields the
wrapped error, the URL-containing message, and the capped backoff sleeps. -/
theorem fetch_json_retry_spec_witness :
    ∃ e, (fun _ : Nat => (Except.error "boom" : Except String Unit)) 2 = Except.error e ∧
      (fetch_json (fun _ : Nat => (Except.error "boom" : Except String Unit)) "u" 1
            (3 / 2)).result =
        Except.error { msg := wrapMsg "u" e, cause := some e } ∧
      (∃ a b, wrapMsg "u" e = a ++ "u" ++ b) ∧
      (fetch_json (fun _ : Nat => (Except.error "boom" : Except String Unit)) "u" 1
            (3 / 2)).sleeps =
        (List.range 2).map (fun k => min ((3 / 2 : ℚ) ^ (k + 1)) 8) :=
  (fetch_json_retry_spec (fun _ => Except.error "boom") "u" 1 (3 / 2)).2.2
    (fun _ _ _ => rfl)

/-! ## Lemmas about the tag classification -/

theorem charListLe_total : ∀ a b : List Char, charListLe a b = true ∨ charListLe b a = true := by
  intro a
  induction a with
  | nil => intro b; left; rfl
  | cons x xs ih =>
    intro b
    cases b with
    | nil => right; rfl
    | cons y ys =>
      rcases lt_trichotomy x y with h | h | h
      · left; simp [charListLe, h]
      · subst h
        rcases ih ys with h2 | h2
        · left; simp [charListLe, lt_irrefl, h2]
        · right; simp [charListLe, lt_irrefl, h2]
      · right; simp [charListLe, h]

theorem charListLe_trans :
    ∀ a b c : List Char, charListLe a b = true → charListLe b c = true →
      charListLe a c = true := by
  intro a
  induction a with
  | nil => intro b c _ _; rfl
  | cons x xs ih =>
    intro b c hab hbc
    cases b with
    | nil => simp [charListLe] at hab
    | cons y ys =>
      cases c with
      | nil => simp [charListLe] at hbc
      | cons z zs =>
        simp only [charListLe] at hab hbc ⊢
        rcases lt_trichotomy x y with hxy | hxy | hxy
        · rcases lt_trichotomy y z with hyz | hyz | hyz
          · simp [lt_trans hxy hyz]
          · subst hyz; simp [hxy]
          · rw [if_neg (lt_asymm hyz), if_pos hyz] at hbc; exact absurd hbc (by simp)
        · subst hxy
          rcases lt_trichotomy x z with hyz | hyz | hyz
          · simp [hyz]
          · subst hyz
            rw [if_neg (lt_irrefl x), if_neg (lt_irrefl x)] at hab hbc ⊢
            exact ih _ _ hab hbc
          · rw [if_neg (lt_asymm hyz), if_pos hyz] at hbc; exact absurd hbc (by simp)
        · rw [if_neg (lt_asymm hxy), if_pos hxy] at hab; exact absurd hab (by simp)

instance : IsTotal String pyLe := ⟨fun a b => charListLe_total a.toList b.toList⟩

instance : IsTrans String pyLe :=
  ⟨fun a b c hab hbc => charListLe_trans a.toList b.toList c.toList hab hbc⟩

theorem charListLe_refl : ∀ l : List Char, charListLe l l = true := by
  intro l
  induction l with
  | nil => rfl
  | cons a t ih => simp [charListLe, lt_irrefl, ih]

theorem pyLe_refl (s : String) : pyLe s s := charListLe_refl s.toList

theorem sorted_le_getLast :
    ∀ (l : List String), l.Sorted pyLe → ∀ m, l.getLast? = some m → ∀ x ∈ l, pyLe x m := by
  intro l
  induction l with
  | nil => intro _ m hm; simp at hm
  | cons a t ih =>
    intro hs m hm x hx
    cases t with
    | nil =>
      rcases List.mem_singleton.mp hx with rfl
      simp only [List.getLast?_singleton, Option.some.injEq] at hm
      exact hm ▸ pyLe_refl x
    | cons b t' =>
      rw [List.getLast?_cons_cons] at hm
      have hmem : m ∈ b :: t' := List.mem_of_getLast?_eq_some hm
      rcases List.mem_cons.mp hx with rfl | hx
      · exact (List.sorted_cons.mp hs).1 m hmem
      · exact ih (List.sorted_cons.mp hs).2 m hm x hx

/-- C6: `split_latest_versions` partitions the reconciled tag set into the
literal "latest", semver-pattern tags sorted ascending, and the rest
sorted ascending; the best guess prefers the lexicographically-last (i.e.
maximal) semver tag, then "latest", then the first other tag. Concretely,
`{"latest", "1.2.3", "v2.0.0-beta", "nightly"}` classifies to
versions `["1.2.3", "v2.0.0-beta"]`, latest `["latest"]`, others
`["nightly"]`, with best guess `"v2.0.0-beta"`. -/
theorem classification_spec :
    (∀ tags : List String,
      (∀ t, t ∈ (split_latest_versions tags).1 ↔ t ∈ tags ∧ t = "latest") ∧
        (∀ t, t ∈ (split_latest_versions tags).2.1 ↔
          t ∈ tags ∧ t ≠ "latest" ∧ isSemver t = true) ∧
        (∀ t, t ∈ (split_latest_versions tags).2.2 ↔
          t ∈ tags ∧ t ≠ "latest" ∧ isSemver t = false) ∧
        (split_latest_versions tags).2.1.Sorted pyLe ∧
        (split_latest_versions tags).2.2.Sorted pyLe ∧
        (∀ m, (split_latest_versions tags).2.1.getLast? = some m →
          preferredTag (split_latest_versions tags).2.1 (split_latest_versions tags).1
              (split_latest_versions tags).2.2 = some m ∧
            m ∈ (split_latest_versions tags).2.1 ∧
            ∀ x ∈ (split_latest_versions tags).2.1, pyLe x m) ∧
        ((split_latest_versions tags).2.1 = [] →
          preferredTag (split_latest_versions tags).2.1 (split_latest_versions tags).1
              (split_latest_versions tags).2.2 =
            (match (split_latest_versions tags).1.head? with
             | some t => some t
             | none => (split_latest_versions tags).2.2.head?))) ∧
      split_latest_versions ["latest", "1.2.3", "v2.0.0-beta", "nightly"] =
        (["latest"], ["1.2.3", "v2.0.0-beta"], ["nightly"]) ∧
      preferredTag ["1.2.3", "v2.0.0-beta"] ["latest"] ["nightly"] = some "v2.0.0-beta" := by
  refine ⟨fun tags => ⟨?_, ?_, ?_, ?_, ?_, ?_, ?_⟩, by decide, by decide⟩
  · intro t
    simp [split_latest_versions, List.mem_filter]
  · intro t
    simp [split_latest_versions, sortStrs, List.mem_insertionSort, List.mem_filter,
      and_assoc]
  · intro t
    simp [split_latest_versions, sortStrs, List.mem_insertionSort, List.mem_filter,
      and_assoc]
  · exact List.sorted_insertionSort pyLe _
  · exact List.sorted_insertionSort pyLe _
  · intro m hm
    refine ⟨?_, List.mem_of_getLast?_eq_some hm, ?_⟩
    · rw [preferredTag, hm]
    · exact sorted_le_getLast _ (List.sorted_insertionSort pyLe _) m hm
  · intro hnil
    rw [preferredTag, hnil]
    rfl

/-- C7: when no digest survives the repository-match filter, `main` treats
this as a legitimate terminal state rather than an error: exit code 0 in
both output modes, a JSON payload with `mapping_possible = false` and the
explanatory note, and the note printed in human mode. -/
theorem empty_digests_not_error (reg : String → Page) (entries : List String)
    (localId : Option String) (ref : String) (scanAll : Bool) (maxPages : Nat)
    (h : matchedDigests (normalize_repo ref).1 entries = []) :
    (main_run reg entries localId ⟨ref, true, scanAll, maxPages⟩).exitCode = 0 ∧
      (main_run reg entries localId ⟨ref, true, scanAll, maxPages⟩).payload =
        some
          { input := ref, repository := repo_for_output (normalize_repo ref).1,
            local_repo_digests := [], local_id := localId, mapping_possible := some false,
            note := some noteMsg, tags := none, all_tags_sorted := none, scan_all := none,
            max_pages := none } ∧
      (main_run reg entries localId ⟨ref, false, scanAll, maxPages⟩).exitCode = 0 ∧
      noteMsg ∈ (main_run reg entries localId ⟨ref, false, scanAll, maxPages⟩).lines := by
  refine ⟨?_, ?_, ?_, ?_⟩ <;>
    simp [main_run, h]

/-- Witness for C7 at a concrete empty inspection result. -/
theorem empty_digests_not_error_witness :
    (main_run (fun _ => { results := [], next := none }) [] none
          ⟨"ubuntu", true, false, 200⟩).exitCode = 0 ∧
      (main_run (fun _ => { results := [], next := none }) [] none
            ⟨"ubuntu", true, false, 200⟩).payload =
        some
          { input := "ubuntu", repository := repo_for_output (normalize_repo "ubuntu").1,
            local_repo_digests := [], local_id := none, mapping_possible := some false,
            note := some noteMsg, tags := none, all_tags_sorted := none, scan_all := none,
            max_pages := none } ∧
      (main_run (fun _ => { results := [], next := none }) [] none
            ⟨"ubuntu", false, false, 200⟩).exitCode = 0 ∧
      noteMsg ∈ (main_run (fun _ => { results := [], next := none }) [] none
            ⟨"ubuntu", false, false, 200⟩).lines :=
  empty_digests_not_error (fun _ => { results := [], next := none }) [] none "ubuntu" false 200
    rfl

/-! ## Lemmas about reference normalization -/

theorem toList_append (a b : String) : (a ++ b).toList = a.toList ++ b.toList :=
  String.data_append a b

theorem mk_toList (s : String) : String.mk s.toList = s := rfl

theorem isPrefixOf_iff_pre : ∀ {l₁ l₂ : List Char}, l₁.isPrefixOf l₂ = true ↔ l₁ <+: l₂ := by
  intro l₁
  induction l₁ with
  | nil => intro l₂; simp [List.nil_prefix]
  | cons a as ih =>
    intro l₂
    cases l₂ with
    | nil => simp
    | cons b bs =>
      rw [List.isPrefixOf_cons₂, List.cons_prefix_cons, Bool.and_eq_true, beq_iff_eq, ih]

theorem slashPre_not (q R T : List Char) (hq : '/' ∉ q) (hR : '/' ∈ R)
    (h : ¬(q ++ ['/']) <+: R) : ¬(q ++ ['/']) <+: R ++ T := by
  intro hpre
  by_cases hlen : (q ++ ['/']).length ≤ R.length
  · refine h ?_
    have htake := List.prefix_iff_eq_take.mp hpre
    rw [List.take_append_eq_append_take, Nat.sub_eq_zero_of_le hlen, List.take_zero,
      List.append_nil] at htake
    rw [htake]
    exact List.take_prefix _ R
  · have hRlen : R.length ≤ q.length := by
      simp only [List.length_append, List.length_singleton] at hlen
      omega
    obtain ⟨s, hs⟩ := hpre
    have h1 : (q ++ ['/'] ++ s).take R.length = R := by
      rw [hs, List.take_append_eq_append_take, Nat.sub_eq_zero_of_le (le_refl _),
        List.take_zero, List.append_nil, List.take_length]
    have h2 : (q ++ ['/'] ++ s).take R.length = (q ++ ['/']).take R.length := by
      rw [List.take_append_eq_append_take,
        Nat.sub_eq_zero_of_le (by simp only [List.length_append, List.length_singleton]; omega),
        List.take_zero, List.append_nil]
    have h3 : (q ++ ['/']).take R.length = q.take R.length := by
      rw [List.take_append_eq_append_take, Nat.sub_eq_zero_of_le hRlen,
        List.take_zero, List.append_nil]
    have hRq : R = q.take R.length := by
      conv_lhs => rw [← h1, h2, h3]
    have hpre2 : R <+: q := by
      refine ⟨q.drop R.length, ?_⟩
      nth_rewrite 1 [hRq]
      exact List.take_append_drop _ _
    exact hq (hpre2.subset hR)

theorem splitFirstOn_fst_no (c : Char) : ∀ l : List Char, c ∉ (splitFirstOn c l).1 := by
  intro l
  induction l with
  | nil => simp [splitFirstOn]
  | cons x xs ih =>
    by_cases hx : x = c
    · simp [splitFirstOn, hx]
    · simp only [splitFirstOn, if_neg hx, List.mem_cons]
      rintro (rfl | hmem)
      · exact hx rfl
      · exact ih hmem

theorem splitFirstOn_append_no (c : Char) :
    ∀ (A B : List Char), c ∉ A → splitFirstOn c (A ++ c :: B) = (A, B) := by
  intro A
  induction A with
  | nil => intro B _; simp [splitFirstOn]
  | cons a as ih =>
    intro B hA
    have ha : a ≠ c := fun h => hA (h ▸ List.mem_cons_self a as)
    have has : c ∉ as := fun h => hA (List.mem_cons_of_mem a h)
    simp [splitFirstOn, ha, ih B has]

theorem splitLastOn_snd_no (c : Char) (l : List Char) (a b : List Char)
    (h : splitLastOn c l = some (a, b)) : c ∉ b := by
  rw [splitLastOn] at h
  by_cases hc : c ∈ l
  · rw [if_pos hc] at h
    simp only [Option.some.injEq, Prod.mk.injEq] at h
    rw [← h.2, List.mem_reverse]
    exact splitFirstOn_fst_no c l.reverse
  · rw [if_neg hc] at h
    exact absurd h (by simp)

theorem splitLastOn_append (c : Char) (R T : List Char) (hT : c ∉ T) :
    splitLastOn c (R ++ c :: T) = some (R, T) := by
  rw [splitLastOn, if_pos (by simp)]
  have hrev : (R ++ c :: T).reverse = T.reverse ++ c :: R.reverse := by
    rw [List.reverse_append, List.reverse_cons, List.append_assoc, List.singleton_append]
  rw [hrev, splitFirstOn_append_no c T.reverse R.reverse (by simpa using hT)]
  simp

theorem normSplit_snd_no_colon (r : String) : ':' ∉ (normSplit r).2.toList := by
  rw [normSplit]
  cases hsp : splitLastOn ':' r.toList with
  | none => exact (by decide : ':' ∉ "latest".toList)
  | some p =>
    obtain ⟨a, b⟩ := p
    exact fun hmem => splitLastOn_snd_no ':' r.toList a b hsp hmem

theorem normalize_repo_slash (ref : String) : '/' ∈ (normalize_repo ref).1.toList := by
  rw [normalize_repo]
  by_cases hc : '/' ∈ (normSplit (stripHostPre ref)).1.toList
  · rw [if_pos hc]; exact hc
  · rw [if_neg hc]
    show '/' ∈ ("library/" ++ (normSplit (stripHostPre ref)).1).toList
    rw [toList_append]
    exact List.mem_append_left _ (by decide)

theorem normalize_repo_snd (ref : String) :
    (normalize_repo ref).2 = (normSplit (stripHostPre ref)).2 := by
  rw [normalize_repo]
  by_cases hc : '/' ∈ (normSplit (stripHostPre ref)).1.toList
  · rw [if_pos hc]
  · rw [if_neg hc]

theorem normalize_repo_tag_no_colon (ref : String) :
    ':' ∉ (normalize_repo ref).2.toList := by
  rw [normalize_repo_snd]
  exact normSplit_snd_no_colon _

theorem toList_join (repo tag : String) :
    (repo ++ ":" ++ tag).toList = repo.toList ++ ':' :: tag.toList := by
  rw [toList_append, toList_append, List.append_assoc]
  rfl

theorem normSplit_join (repo tag : String) (h : ':' ∉ tag.toList) :
    normSplit (repo ++ ":" ++ tag) = (repo, tag) := by
  rw [normSplit, toList_join, splitLastOn_append ':' _ _ h]
  rfl

theorem strip_cond (repo tag : String) (q : List Char) (p : String)
    (hp : p.toList = q ++ ['/']) (hq : '/' ∉ q) (hslash : '/' ∈ repo.toList)
    (hfalse : strStartsWith repo p = false) :
    strStartsWith (repo ++ ":" ++ tag) p = false := by
  have hnot : ¬p.toList <+: repo.toList := by
    intro hh
    rw [strStartsWith, isPrefixOf_iff_pre.mpr hh] at hfalse
    simp at hfalse
  have hnot2 : ¬p.toList <+: repo.toList ++ ':' :: tag.toList := by
    rw [hp] at hnot ⊢
    exact slashPre_not q repo.toList (':' :: tag.toList) hq hslash hnot
  rw [strStartsWith, toList_join]
  cases hb : List.isPrefixOf p.toList (repo.toList ++ ':' :: tag.toList) with
  | false => rfl
  | true => exact absurd (isPrefixOf_iff_pre.mp hb) hnot2

theorem stripHostPre_clean (s : String)
    (k1 : strStartsWith s "docker.io/" = false)
    (k2 : strStartsWith s "index.docker.io/" = false)
    (k3 : strStartsWith s "registry-1.docker.io/" = false) :
    stripHostPre s = s := by
  simp [stripHostPre, k1, k2, k3]

/-- C8 (amended): normalization is idempotent for every reference whose
normalized repository does not itself begin with one of the stripped
registry host spellings — re-normalizing `repository ++ ":" ++ tag` gives
the same pair back. (Without that proviso idempotence fails, see the
counterexample.) -/
theorem normalize_repo_idem_amended (ref : String)
    (h1 : strStartsWith (normalize_repo ref).1 "docker.io/" = false)
    (h2 : strStartsWith (normalize_repo ref).1 "index.docker.io/" = false)
    (h3 : strStartsWith (normalize_repo ref).1 "registry-1.docker.io/" = false) :
    normalize_repo ((normalize_repo ref).1 ++ ":" ++ (normalize_repo ref).2) =
      normalize_repo ref := by
  have hslash := normalize_repo_slash ref
  have hcolon := normalize_repo_tag_no_colon ref
  have k1 : strStartsWith ((normalize_repo ref).1 ++ ":" ++ (normalize_repo ref).2)
      "docker.io/" = false :=
    strip_cond _ _ "docker.io".toList _ (by decide) (by decide) hslash h1
  have k2 : strStartsWith ((normalize_repo ref).1 ++ ":" ++ (normalize_repo ref).2)
      "index.docker.io/" = false :=
    strip_cond _ _ "index.docker.io".toList _ (by decide) (by decide) hslash h2
  have k3 : strStartsWith ((normalize_repo ref).1 ++ ":" ++ (normalize_repo ref).2)
      "registry-1.docker.io/" = false :=
    strip_cond _ _ "registry-1.docker.io".toList _ (by decide) (by decide) hslash h3
  rw [normalize_repo, stripHostPre_clean _ k1 k2 k3, normSplit_join _ _ hcolon,
    if_pos hslash]

/-- C8 (counterexample): normalization is not idempotent as stated — for
the input `docker.io/docker.io/x` the first pass yields repository
`docker.io/x`, and re-normalizing the re-joined pair strips the remaining
host spelling and prepends `library/`, yielding a different pair. -/
theorem normalize_repo_not_idempotent :
    normalize_repo ((normalize_repo "docker.io/docker.io/x").1 ++ ":" ++
        (normalize_repo "docker.io/docker.io/x").2) ≠
      normalize_repo "docker.io/docker.io/x" := by decide

/-- Witness for the amended C8 at a concrete reference. -/
theorem normalize_repo_idem_amended_witness :
    normalize_repo ((normalize_repo "ubuntu").1 ++ ":" ++ (normalize_repo "ubuntu").2) =
      normalize_repo "ubuntu" :=
  normalize_repo_idem_amended "ubuntu" (by decide) (by decide) (by decide)

end DockerRevLookup
